import Mathlib

/-
Verification of `pandapower/estimation/algorithm/matrix_base.py`.

Shallow embedding conventions:
- real scalars are modelled as rationals;
- complex numbers are pairs of rationals (`Cplx`);
- numpy 1-D arrays are Lean lists; dense/sparse 2-D arrays are functional
  matrices (`Mat`, `CMat`) carrying explicit row/column counts;
- the transcendental functions `exp(i*theta)` and the complex magnitude are
  abstract parameters (`cis`, `cabs`), since no verified property depends on
  their analytic form;
- the mutable fields `v`, `delta` of the algebra object are modelled by
  returning an updated record from every method.
-/

/-- A complex number with rational components, standing for a numpy complex
scalar. -/
structure Cplx where
  re : ℚ
  im : ℚ
deriving DecidableEq, Repr

/-- Complex zero. -/
def Cplx.zero : Cplx := ⟨0, 0⟩

/-- Complex addition. -/
def Cplx.add (a b : Cplx) : Cplx := ⟨a.re + b.re, a.im + b.im⟩

/-- Complex multiplication. -/
def Cplx.mul (a b : Cplx) : Cplx := ⟨a.re * b.re - a.im * b.im, a.re * b.im + a.im * b.re⟩

/-- Complex conjugation (`np.conj`). -/
def Cplx.conj (a : Cplx) : Cplx := ⟨a.re, -a.im⟩

/-- Scaling of a complex number by a real scalar. -/
def Cplx.smul (k : ℚ) (a : Cplx) : Cplx := ⟨k * a.re, k * a.im⟩

theorem Cplx.add_comm (a b : Cplx) : Cplx.add a b = Cplx.add b a := by
  simp [Cplx.add]
  exact ⟨by ring, by ring⟩

/-- Dot product of two complex vectors. -/
def cdot (xs ys : List Cplx) : Cplx :=
  (List.zipWith Cplx.mul xs ys).foldr Cplx.add Cplx.zero

/-- Sparse-matrix / vector product (`Y * V` in scipy), with the matrix stored
as a list of rows. -/
def matVec (M : List (List Cplx)) (x : List Cplx) : List Cplx :=
  M.map (fun row => cdot row x)

/-- Elementwise product of two complex vectors (`a * b` in numpy). -/
def vecMul2 (xs ys : List Cplx) : List Cplx := List.zipWith Cplx.mul xs ys

/-- Elementwise conjugation of a complex vector. -/
def conjVec (xs : List Cplx) : List Cplx := xs.map Cplx.conj

/-- Integer fancy indexing `xs[idx]` on a 1-D complex array. -/
def idxSelect (xs : List Cplx) (idx : List Nat) : List Cplx :=
  idx.map (fun i => xs.getD i Cplx.zero)

/-- Boolean mask indexing `xs[mask]` on a 1-D array: keep the entries at the
positions where the mask is true, in order. -/
def boolSelect {α : Type} (mask : List Bool) (xs : List α) : List α :=
  ((xs.zip mask).filter (fun p => p.2)).map (fun p => p.1)

/-- `np.flatnonzero(mask)` for a boolean vector: the indices of the true
entries, in increasing order. -/
def flatnonzero (mask : List Bool) : List Nat :=
  (List.range mask.length).filter (fun i => mask.getD i false)

/-- Fancy-index assignment `d[i] = x` iterated over a list of index/value
pairs, modelling `delta[self.non_slack_buses] = E[:num_non_slack_bus]`
(later writes win on duplicate indices, as in numpy). -/
def setAll (d : List ℚ) : List (Nat × ℚ) → List ℚ
  | [] => d
  | (i, x) :: ps => setAll (d.set i x) ps

/-- The value the iterated assignment `setAll` leaves at index `k`: the value
of the last pair writing to `k`, if any. -/
def lookupLast : List (Nat × ℚ) → Nat → Option ℚ
  | [], _ => none
  | (i, x) :: ps, k =>
    match lookupLast ps k with
    | some y => some y
    | none => if i = k then some x else none

/-- A real matrix of known shape with a total entry function, standing for a
2-D numpy array or scipy sparse matrix. -/
structure Mat where
  rows : Nat
  cols : Nat
  ent : Nat → Nat → ℚ

/-- A complex matrix of known shape with a total entry function. -/
structure CMat where
  rows : Nat
  cols : Nat
  ent : Nat → Nat → Cplx

/-- Vertical stacking of two matrices (`scipy.sparse.vstack` / `np.r_`). -/
def Mat.vstack2 (M N : Mat) : Mat :=
  { rows := M.rows + N.rows, cols := M.cols,
    ent := fun r c => if r < M.rows then M.ent r c else N.ent (r - M.rows) c }

/-- Horizontal stacking of two matrices (`scipy.sparse.hstack` / `np.c_`). -/
def Mat.hstack2 (M N : Mat) : Mat :=
  { rows := M.rows, cols := M.cols + N.cols,
    ent := fun r c => if c < M.cols then M.ent r c else N.ent r (c - M.cols) }

/-- The all-zeros matrix (`np.zeros`). -/
def Mat.zeros (m n : Nat) : Mat := { rows := m, cols := n, ent := fun _ _ => 0 }

/-- The identity matrix (`np.eye`). -/
def Mat.eye (n : Nat) : Mat :=
  { rows := n, cols := n, ent := fun r c => if r = c then 1 else 0 }

/-- Row fancy indexing `M[sel, :]`. -/
def Mat.rowSel (M : Mat) (sel : List Nat) : Mat :=
  { rows := sel.length, cols := M.cols, ent := fun r c => M.ent (sel.getD r 0) c }

/-- Column fancy indexing `M[:, sel]`. -/
def Mat.colSel (M : Mat) (sel : List Nat) : Mat :=
  { rows := M.rows, cols := sel.length, ent := fun r c => M.ent r (sel.getD c 0) }

/-- Scaling every entry of a matrix by a scalar. -/
def Mat.smul (k : ℚ) (M : Mat) : Mat :=
  { rows := M.rows, cols := M.cols, ent := fun r c => k * M.ent r c }

/-- The in-range entries of a matrix as a list of rows; two matrices denote
the same array exactly when their `toLists` agree. -/
def Mat.toLists (M : Mat) : List (List ℚ) :=
  (List.range M.rows).map (fun r => (List.range M.cols).map (fun c => M.ent r c))

/-- Real part of a complex matrix (`np.real` / `.real`). -/
def CMat.reM (M : CMat) : Mat :=
  { rows := M.rows, cols := M.cols, ent := fun r c => (M.ent r c).re }

/-- Imaginary part of a complex matrix (`np.imag` / `.imag`). -/
def CMat.imM (M : CMat) : Mat :=
  { rows := M.rows, cols := M.cols, ent := fun r c => (M.ent r c).im }

theorem setAll_length (ps : List (Nat × ℚ)) (d : List ℚ) :
    (setAll d ps).length = d.length := by
  induction ps generalizing d with
  | nil => rfl
  | cons p ps ih => simpa [setAll] using ih (d.set p.1 p.2)

theorem setAll_getElem? (ps : List (Nat × ℚ)) (d : List ℚ) (k : Nat) :
    (setAll d ps)[k]? =
      match lookupLast ps k with
      | some x => if k < d.length then some x else none
      | none => d[k]? := by
  induction ps generalizing d with
  | nil => cases h : lookupLast [] k <;> simp_all [lookupLast, setAll]
  | cons p ps ih =>
    obtain ⟨i, x⟩ := p
    rw [setAll, ih]
    cases h : lookupLast ps k with
    | some y => simp [lookupLast, h, List.length_set]
    | none =>
      simp only [lookupLast, h, List.length_set, List.getElem?_set]
      by_cases hik : i = k
      · simp [hik]
      · simp [hik]

theorem setAll_idem (ps : List (Nat × ℚ)) (d : List ℚ) :
    setAll (setAll d ps) ps = setAll d ps := by
  apply List.ext_getElem?
  intro k
  rw [setAll_getElem?, setAll_getElem?, setAll_length]
  cases h : lookupLast ps k with
  | some x => simp
  | none => simp [setAll_getElem?, h]

theorem setAll_getElem?_not_mem (ps : List (Nat × ℚ)) (d : List ℚ) (k : Nat)
    (hk : ∀ p ∈ ps, p.1 ≠ k) : (setAll d ps)[k]? = d[k]? := by
  rw [setAll_getElem?]
  have h : lookupLast ps k = none := by
    induction ps with
    | nil => rfl
    | cons p ps ih =>
      rw [lookupLast, ih (fun q hq => hk q (List.mem_cons_of_mem p hq))]
      simp [hk p (List.mem_cons_self p ps)]
  simp [h]

theorem flatnonzero_cons (m : Bool) (ms : List Bool) :
    flatnonzero (m :: ms) =
      (if m then [0] else []) ++ (flatnonzero ms).map (fun i => i + 1) := by
  unfold flatnonzero
  rw [List.length_cons, List.range_succ_eq_map, List.filter_cons, List.filter_map]
  cases m <;> simp [Function.comp_def, Nat.succ_eq_add_one]

theorem boolSelect_cons {α : Type} (m : Bool) (ms : List Bool) (x : α) (xs : List α) :
    boolSelect (m :: ms) (x :: xs) = (if m then [x] else []) ++ boolSelect ms xs := by
  unfold boolSelect
  rw [List.zip_cons_cons, List.filter_cons]
  cases m <;> simp

theorem boolSelect_eq_posSelect {α : Type} (d : α) (mask : List Bool) (xs : List α)
    (h : mask.length = xs.length) :
    boolSelect mask xs = (flatnonzero mask).map (fun i => xs.getD i d) := by
  induction mask generalizing xs with
  | nil => cases xs <;> simp_all [boolSelect, flatnonzero]
  | cons m ms ih =>
    cases xs with
    | nil => simp at h
    | cons x xs =>
      rw [boolSelect_cons, flatnonzero_cons, List.map_append, List.map_map,
        ih xs (by simpa using h)]
      cases m <;> simp [Function.comp_def]

theorem flatnonzero_length (mask : List Bool) :
    (flatnonzero mask).length = mask.count true := by
  induction mask with
  | nil => rfl
  | cons m ms ih =>
    rw [flatnonzero_cons, List.length_append, List.length_map, ih, List.count_cons]
    cases m <;> simp [Nat.add_comm]

theorem mem_flatnonzero (mask : List Bool) (i : Nat) :
    i ∈ flatnonzero mask ↔ i < mask.length ∧ mask.getD i false = true := by
  unfold flatnonzero
  rw [List.mem_filter, List.mem_range]

theorem flatnonzero_getD_lt (mask : List Bool) (r : Nat)
    (hr : r < (flatnonzero mask).length) :
    (flatnonzero mask).getD r 0 < mask.length ∧
      mask.getD ((flatnonzero mask).getD r 0) false = true := by
  have hm : (flatnonzero mask).getD r 0 ∈ flatnonzero mask := by
    rw [List.getD_eq_getElem?_getD, List.getElem?_eq_getElem hr]
    exact List.getElem_mem hr
  exact (mem_flatnonzero mask _).mp hm

/-- The algebra object of `BaseAlgebra.__init__`: the per-run configuration
(topology, admittance matrices, masks, selectors, measurements) together with
the mutable cached voltage-state fields `v` and `delta`.

The analytic-derivative routines `dSbus_dV` and `dSbr_dV` are pypower code
that is not under src; their outputs are carried as abstract matrix-valued
fields of the object (`dSbus_dth_f`, ..., `dIt_dv_f`), so every theorem below
holds for arbitrary analytic derivative blocks. -/
structure BaseAlgebra where
  fb : List Nat
  tb : List Nat
  n_bus : Nat
  n_branch : Nat
  baseMVA : ℚ
  num_non_slack_bus : Nat
  non_slack_buses : List Nat
  delta_v_bus_mask : List Bool
  non_nan_meas_mask : List Bool
  any_i_meas : Bool
  delta_v_bus_selector : List Nat
  non_nan_meas_selector : List Nat
  z : List ℚ
  sigma : List ℚ
  Ybus : List (List Cplx)
  Yf : List (List Cplx)
  Yt : List (List Cplx)
  v : List ℚ
  delta : List ℚ
  dSbus_dth_f : List Cplx → CMat
  dSbus_dv_f : List Cplx → CMat
  dSf_dth_f : List Cplx → CMat
  dSf_dv_f : List Cplx → CMat
  dSt_dth_f : List Cplx → CMat
  dSt_dv_f : List Cplx → CMat
  dIf_dth_f : List Cplx → CMat
  dIf_dv_f : List Cplx → CMat
  dIt_dth_f : List Cplx → CMat
  dIt_dv_f : List Cplx → CMat

/-- `BaseAlgebra._e2v`: decode the state vector into the cached voltage state,
`self.v = E[num_non_slack_bus:]` and
`self.delta[self.non_slack_buses] = E[:num_non_slack_bus]`, returning the
decoded pair together with the updated algebra object. -/
def e2v (A : BaseAlgebra) (E : List ℚ) : List ℚ × List ℚ × BaseAlgebra :=
  let v := E.drop A.num_non_slack_bus
  let delta := setAll A.delta (A.non_slack_buses.zip (E.take A.num_non_slack_bus))
  (v, delta, { A with v := v, delta := delta })

/-- The complex voltage vector `V = v * np.exp(1j * delta)`, with
`cis d` standing for `exp(1j * d)`. -/
def mkV (cis : ℚ → Cplx) (v delta : List ℚ) : List Cplx :=
  List.zipWith (fun a d => Cplx.smul a (cis d)) v delta

/-- The full (pre-mask) predicted measurement vector assembled by
`BaseAlgebra.create_hx`: the nine blocks stacked by `np.r_`, with
`cabs` standing for `np.abs` on complex numbers. -/
def hxFull (cis : ℚ → Cplx) (cabs : Cplx → ℚ) (A : BaseAlgebra)
    (v delta : List ℚ) : List ℚ :=
  let V := mkV cis v delta
  let Sfe := vecMul2 (idxSelect V A.fb) (conjVec (matVec A.Yf V))
  let Ste := vecMul2 (idxSelect V A.tb) (conjVec (matVec A.Yt V))
  let Sbuse := vecMul2 V (conjVec (matVec A.Ybus V))
  let Ife := matVec A.Yf V
  let Ite := matVec A.Yt V
  Sbuse.map Cplx.re ++ Sfe.map Cplx.re ++ Ste.map Cplx.re ++
    Sbuse.map Cplx.im ++ Sfe.map Cplx.im ++ Ste.map Cplx.im ++
    v ++ Ife.map cabs ++ Ite.map cabs

/-- `BaseAlgebra.create_hx`: decode, assemble the full measurement vector and
return `hx[self.non_nan_meas_mask]` with the updated algebra object. -/
def create_hx (cis : ℚ → Cplx) (cabs : Cplx → ℚ) (A : BaseAlgebra) (E : List ℚ) :
    List ℚ × BaseAlgebra :=
  let p := e2v A E
  (boolSelect A.non_nan_meas_mask (hxFull cis cabs A p.1 p.2.1), p.2.2)

/-- `BaseAlgebra.create_rx`: the residual `(self.z - hx).ravel()`. -/
def create_rx (cis : ℚ → Cplx) (cabs : Cplx → ℚ) (A : BaseAlgebra) (E : List ℚ) :
    List ℚ × BaseAlgebra :=
  let p := create_hx cis cabs A E
  (List.zipWith (fun a b => a - b) A.z p.1, p.2)

/-- The fixed finite-difference step `1e-5` of `BaseAlgebra._dibr_dv`. -/
def fdStep : ℚ := 1 / 100000

/-- Modelled from the spec: the pypower routine `dIbr_dV` is not under src.
Per spec section 4.1 it supplies the analytic partial derivatives of the
complex branch currents (abstract fields of the algebra object here) together
with the unperturbed branch currents `If = Yf * V` and `It = Yt * V`. -/
def dIbr_dV (A : BaseAlgebra) (V : List Cplx) :
    CMat × CMat × CMat × CMat × List Cplx × List Cplx :=
  (A.dIf_dth_f V, A.dIf_dv_f V, A.dIt_dth_f V, A.dIt_dv_f V,
    matVec A.Yf V, matVec A.Yt V)

/-- One finite-difference block of `BaseAlgebra._dibr_dv`:
`(np.abs(1e-5 * D + I.reshape((-1, 1))) - np.abs(I.reshape((-1, 1)))) / 1e-5`,
with the current vector broadcast along rows. -/
def fdMag (cabs : Cplx → ℚ) (D : CMat) (I : List Cplx) : Mat :=
  { rows := D.rows, cols := D.cols,
    ent := fun r c =>
      (cabs (Cplx.add (Cplx.smul fdStep (D.ent r c)) (I.getD r Cplx.zero)) -
        cabs (I.getD r Cplx.zero)) / fdStep }

/-- `BaseAlgebra._dibr_dv`: numerical perturbation of the branch-current
magnitudes around the analytic complex-current derivatives. -/
def dibr_dv (cabs : Cplx → ℚ) (A : BaseAlgebra) (V : List Cplx) :
    Mat × Mat × Mat × Mat :=
  let p := dIbr_dV A V
  (fdMag cabs p.1 p.2.2.2.2.1, fdMag cabs p.2.1 p.2.2.2.2.1,
    fdMag cabs p.2.2.1 p.2.2.2.2.2, fdMag cabs p.2.2.2.1 p.2.2.2.2.2)

/-- `BaseAlgebra._dVbus_dv`: the trivial voltage-magnitude derivative blocks,
a zero matrix and an identity of size `V.shape[0]`. -/
def dVbus_dv (V : List Cplx) : Mat × Mat :=
  (Mat.zeros V.length V.length, Mat.eye V.length)

/-- The power-block Jacobian `s_jac` of `BaseAlgebra.create_hx_jacobian`:
six row blocks per column group, stacked with `vstack` and `hstack`. -/
def sJac (A : BaseAlgebra) (V : List Cplx) : Mat :=
  let s_jac_th :=
    Mat.vstack2 (CMat.reM (A.dSbus_dth_f V))
      (Mat.vstack2 (CMat.reM (A.dSf_dth_f V))
        (Mat.vstack2 (CMat.reM (A.dSt_dth_f V))
          (Mat.vstack2 (CMat.imM (A.dSbus_dth_f V))
            (Mat.vstack2 (CMat.imM (A.dSf_dth_f V)) (CMat.imM (A.dSt_dth_f V))))))
  let s_jac_v :=
    Mat.vstack2 (CMat.reM (A.dSbus_dv_f V))
      (Mat.vstack2 (CMat.reM (A.dSf_dv_f V))
        (Mat.vstack2 (CMat.reM (A.dSt_dv_f V))
          (Mat.vstack2 (CMat.imM (A.dSbus_dv_f V))
            (Mat.vstack2 (CMat.imM (A.dSf_dv_f V)) (CMat.imM (A.dSt_dv_f V))))))
  Mat.hstack2 s_jac_th s_jac_v

/-- The voltage-magnitude Jacobian block `v_jac = hstack((dv_dth, dv_dv))`. -/
def vJac (V : List Cplx) : Mat :=
  Mat.hstack2 (dVbus_dv V).1 (dVbus_dv V).2

/-- The current-magnitude Jacobian block `i_jac` of
`BaseAlgebra.create_hx_jacobian`. -/
def iJac (cabs : Cplx → ℚ) (A : BaseAlgebra) (V : List Cplx) : Mat :=
  let p := dibr_dv cabs A V
  Mat.vstack2 (Mat.hstack2 p.1 p.2.1) (Mat.hstack2 p.2.2.1 p.2.2.2)

/-- `BaseAlgebra.create_hx_jacobian`: stack the derivative blocks (the
current block only when `any_i_meas` holds) and project
`jac[self.non_nan_meas_selector, :][:, self.delta_v_bus_selector]`. -/
def create_hx_jacobian (cis : ℚ → Cplx) (cabs : Cplx → ℚ) (A : BaseAlgebra)
    (E : List ℚ) : Mat × BaseAlgebra :=
  let p := e2v A E
  let V := mkV cis p.1 p.2.1
  let jac :=
    if A.any_i_meas then
      Mat.vstack2 (sJac A V) (Mat.vstack2 (vJac V) (iJac cabs A V))
    else
      Mat.vstack2 (sJac A V) (vJac V)
  ((jac.rowSel A.non_nan_meas_selector).colSel A.delta_v_bus_selector, p.2.2)

/-- The decoupled power block of `BaseAlgebraDecoupled.create_hx_jacobian`:
the imaginary-part rows of the angle group and the real-part rows of the
magnitude group are replaced by `np.zeros_like` blocks. -/
def sJacDec (A : BaseAlgebra) (V : List Cplx) : Mat :=
  let s_jac_th :=
    Mat.vstack2 (CMat.reM (A.dSbus_dth_f V))
      (Mat.vstack2 (CMat.reM (A.dSf_dth_f V))
        (Mat.vstack2 (CMat.reM (A.dSt_dth_f V))
          (Mat.vstack2 (Mat.zeros (A.dSbus_dth_f V).rows (A.dSbus_dth_f V).cols)
            (Mat.vstack2 (Mat.zeros (A.dSf_dth_f V).rows (A.dSf_dth_f V).cols)
              (Mat.zeros (A.dSt_dth_f V).rows (A.dSt_dth_f V).cols)))))
  let s_jac_v :=
    Mat.vstack2 (Mat.zeros (A.dSbus_dv_f V).rows (A.dSbus_dv_f V).cols)
      (Mat.vstack2 (Mat.zeros (A.dSf_dv_f V).rows (A.dSf_dv_f V).cols)
        (Mat.vstack2 (Mat.zeros (A.dSt_dv_f V).rows (A.dSt_dv_f V).cols)
          (Mat.vstack2 (CMat.imM (A.dSbus_dv_f V))
            (Mat.vstack2 (CMat.imM (A.dSf_dv_f V)) (CMat.imM (A.dSt_dv_f V))))))
  Mat.hstack2 s_jac_th s_jac_v

/-- `BaseAlgebraZeroInjConstraints.create_cx`: the zero-injection constraint
vector `np.r_[Sbus[p_zero_inj].real, Sbus[q_zero_inj].imag] * self.baseMVA`. -/
def create_cx (cis : ℚ → Cplx) (A : BaseAlgebra) (E : List ℚ)
    (p_zero_inj q_zero_inj : List Nat) : List ℚ × BaseAlgebra :=
  let p := e2v A E
  let V := mkV cis p.1 p.2.1
  let Sbus := vecMul2 V (conjVec (matVec A.Ybus V))
  let c := (p_zero_inj.map (fun i => (Sbus.getD i Cplx.zero).re) ++
      q_zero_inj.map (fun i => (Sbus.getD i Cplx.zero).im)).map
      (fun x => x * A.baseMVA)
  (c, p.2.2)

/-- `BaseAlgebraZeroInjConstraints.create_cx_jacobian`: select the real-part
rows at `p_zero_inj` and imaginary-part rows at `q_zero_inj` of the bus-power
derivative blocks, stack the angle and magnitude groups, and project the
columns by `delta_v_bus_mask`. -/
def create_cx_jacobian (cis : ℚ → Cplx) (A : BaseAlgebra) (E : List ℚ)
    (p_zero_inj q_zero_inj : List Nat) : Mat × BaseAlgebra :=
  let p := e2v A E
  let V := mkV cis p.1 p.2.1
  let c_jac_th := Mat.vstack2 ((CMat.reM (A.dSbus_dth_f V)).rowSel p_zero_inj)
    ((CMat.imM (A.dSbus_dth_f V)).rowSel q_zero_inj)
  let c_jac_v := Mat.vstack2 ((CMat.reM (A.dSbus_dv_f V)).rowSel p_zero_inj)
    ((CMat.imM (A.dSbus_dv_f V)).rowSel q_zero_inj)
  let c_jac := Mat.hstack2 c_jac_th c_jac_v
  (c_jac.colSel (flatnonzero A.delta_v_bus_mask), p.2.2)

/-- Entrywise congruence for functional matrices: matrices of the same shape
with the same in-range entries denote the same array. -/
theorem Mat.toLists_congr (M N : Mat) (hr : M.rows = N.rows) (hc : M.cols = N.cols)
    (h : ∀ r c, r < M.rows → c < M.cols → M.ent r c = N.ent r c) :
    M.toLists = N.toLists := by
  unfold Mat.toLists
  rw [← hr, ← hc]
  apply List.map_congr_left
  intro r hrm
  apply List.map_congr_left
  intro c hcm
  exact h r c (List.mem_range.mp hrm) (List.mem_range.mp hcm)

/-- The shape and mask consistency invariants of a well-formed algebra object
(spec section 3): admittance and topology arrays sized by `n_bus`/`n_branch`,
distinct in-range non-slack buses, masks over the full theoretical measurement
and state spaces, and selectors equal to `np.flatnonzero` of their masks. -/
def Consistent (A : BaseAlgebra) : Prop :=
  A.Ybus.length = A.n_bus ∧
  A.Yf.length = A.n_branch ∧
  A.Yt.length = A.n_branch ∧
  A.fb.length = A.n_branch ∧
  A.tb.length = A.n_branch ∧
  A.delta.length = A.n_bus ∧
  A.non_slack_buses.length = A.num_non_slack_bus ∧
  A.non_slack_buses.Nodup ∧
  (∀ b ∈ A.non_slack_buses, b < A.n_bus) ∧
  A.non_nan_meas_mask.length = 3 * A.n_bus + 6 * A.n_branch ∧
  A.delta_v_bus_mask.length = 2 * A.n_bus ∧
  A.non_nan_meas_selector = flatnonzero A.non_nan_meas_mask ∧
  A.delta_v_bus_selector = flatnonzero A.delta_v_bus_mask

/-- The shapes of the analytic derivative blocks supplied by the external
pypower routines: bus blocks are `n_bus × n_bus`, branch blocks are
`n_branch × n_bus`, for every voltage vector. -/
def DerivShapes (A : BaseAlgebra) : Prop :=
  ∀ V : List Cplx,
    (A.dSbus_dth_f V).rows = A.n_bus ∧ (A.dSbus_dth_f V).cols = A.n_bus ∧
    (A.dSbus_dv_f V).rows = A.n_bus ∧ (A.dSbus_dv_f V).cols = A.n_bus ∧
    (A.dSf_dth_f V).rows = A.n_branch ∧ (A.dSf_dth_f V).cols = A.n_bus ∧
    (A.dSf_dv_f V).rows = A.n_branch ∧ (A.dSf_dv_f V).cols = A.n_bus ∧
    (A.dSt_dth_f V).rows = A.n_branch ∧ (A.dSt_dth_f V).cols = A.n_bus ∧
    (A.dSt_dv_f V).rows = A.n_branch ∧ (A.dSt_dv_f V).cols = A.n_bus ∧
    (A.dIf_dth_f V).rows = A.n_branch ∧ (A.dIf_dth_f V).cols = A.n_bus ∧
    (A.dIf_dv_f V).rows = A.n_branch ∧ (A.dIf_dv_f V).cols = A.n_bus ∧
    (A.dIt_dth_f V).rows = A.n_branch ∧ (A.dIt_dth_f V).cols = A.n_bus ∧
    (A.dIt_dv_f V).rows = A.n_branch ∧ (A.dIt_dv_f V).cols = A.n_bus

theorem setAll_zip_getElem? (idx : List Nat) (vals d : List ℚ) (hnd : idx.Nodup)
    (hlen : idx.length ≤ vals.length) (j : Nat) (hj : j < idx.length)
    (hb : idx.getD j 0 < d.length) :
    (setAll d (idx.zip vals))[idx.getD j 0]? = vals[j]? := by
  induction idx generalizing vals d j with
  | nil => simp at hj
  | cons i is ih =>
    cases vals with
    | nil => simp at hlen
    | cons x xs =>
      rw [List.zip_cons_cons, setAll]
      cases j with
      | zero =>
        have hnotmem : ∀ p ∈ is.zip xs, p.1 ≠ i := by
          intro p hp hcon
          exact (List.nodup_cons.mp hnd).1 (hcon ▸ (List.of_mem_zip hp).1)
        simp only [List.getD_cons_zero] at hb ⊢
        rw [setAll_getElem?_not_mem _ _ _ hnotmem]
        simp [List.getElem?_set_self hb]
      | succ j =>
        simp only [List.getD_cons_succ] at hb ⊢
        rw [ih xs (d.set i x) (List.nodup_cons.mp hnd).2
            (by simpa using Nat.le_of_succ_le_succ hlen) j
            (Nat.lt_of_succ_lt_succ hj) (by simpa [List.length_set] using hb)]
        simp

/-- A concrete stand-in for `exp(1j * d)` used in witnesses. -/
def cis0 : ℚ → Cplx := fun d => ⟨1, d⟩

/-- A concrete stand-in for the complex magnitude used in witnesses. -/
def cabs0 : Cplx → ℚ := fun c => c.re * c.re + c.im * c.im

/-- A concrete 2 x 2 bus-sized derivative block used in witnesses. -/
def busBlock : CMat := { rows := 2, cols := 2, ent := fun r c => ⟨(r : ℚ) + c, 1⟩ }

/-- A concrete 1 x 2 branch-sized derivative block used in witnesses. -/
def brBlock : CMat := { rows := 1, cols := 2, ent := fun r c => ⟨(r : ℚ) - c, 2⟩ }

/-- A concrete two-bus, one-branch algebra object used in witnesses. -/
def A0 : BaseAlgebra :=
  { fb := [0]
    tb := [1]
    n_bus := 2
    n_branch := 1
    baseMVA := 2
    num_non_slack_bus := 1
    non_slack_buses := [1]
    delta_v_bus_mask := [false, true, true, true]
    non_nan_meas_mask :=
      [true, false, true, false, true, false, true, false, true, false, true, false]
    any_i_meas := true
    delta_v_bus_selector := flatnonzero [false, true, true, true]
    non_nan_meas_selector := flatnonzero
      [true, false, true, false, true, false, true, false, true, false, true, false]
    z := [0, 0, 0, 0, 0, 0]
    sigma := [1, 1, 1, 1, 1, 1]
    Ybus := [[⟨2, -1⟩, ⟨-1, 1⟩], [⟨-1, 1⟩, ⟨2, -1⟩]]
    Yf := [[⟨1, -1⟩, ⟨-1, 1⟩]]
    Yt := [[⟨-1, 1⟩, ⟨1, -1⟩]]
    v := [1, 1]
    delta := [0, 0]
    dSbus_dth_f := fun _ => busBlock
    dSbus_dv_f := fun _ => busBlock
    dSf_dth_f := fun _ => brBlock
    dSf_dv_f := fun _ => brBlock
    dSt_dth_f := fun _ => brBlock
    dSt_dv_f := fun _ => brBlock
    dIf_dth_f := fun _ => brBlock
    dIf_dv_f := fun _ => brBlock
    dIt_dth_f := fun _ => brBlock
    dIt_dv_f := fun _ => brBlock }

/-- A concrete state vector for `A0`. -/
def E0 : List ℚ := [1/2, 1, 2]

/-- C3: for a state vector of length `num_non_slack_bus + n_bus`, `_e2v` sets
the magnitude vector to the last `n_bus` entries of `E`, overwrites the angle
vector only at the non-slack bus positions with the first `num_non_slack_bus`
entries of `E`, and leaves the angle of every other (slack) bus at the value
the algebra object previously held. -/
theorem e2v_decode_correct (A : BaseAlgebra) (E : List ℚ) (hC : Consistent A)
    (hE : E.length = A.num_non_slack_bus + A.n_bus) :
    ((e2v A E).1.length = A.n_bus ∧
      ∀ i, i < A.n_bus → (e2v A E).1[i]? = E[A.num_non_slack_bus + i]?) ∧
    (∀ j, j < A.num_non_slack_bus →
      (e2v A E).2.1[A.non_slack_buses.getD j 0]? = E[j]?) ∧
    (∀ k, k < A.n_bus → k ∉ A.non_slack_buses →
      (e2v A E).2.1[k]? = A.delta[k]?) := by
  obtain ⟨-, -, -, -, -, hdl, hnsl, hnd, hnsb, -, -, -, -⟩ := hC
  refine ⟨⟨?_, ?_⟩, ?_, ?_⟩
  · simp only [e2v, List.length_drop]
    omega
  · intro i hi
    simp only [e2v]
    rw [List.getElem?_drop]
  · intro j hj
    simp only [e2v]
    rw [setAll_zip_getElem? _ _ _ hnd (by simp; omega) j (by omega)
        (by
          rw [hdl]
          refine hnsb _ ?_
          have hj2 : j < A.non_slack_buses.length := by omega
          rw [List.getD_eq_getElem?_getD, List.getElem?_eq_getElem hj2]
          exact List.getElem_mem hj2)]
    exact List.getElem?_take_of_lt (by omega)
  · intro k hk hkmem
    simp only [e2v]
    apply setAll_getElem?_not_mem
    intro p hp hcon
    exact hkmem (hcon ▸ (List.of_mem_zip hp).1)

theorem e2v_decode_correct_witness :
    Consistent A0 ∧ E0.length = A0.num_non_slack_bus + A0.n_bus ∧
    (((e2v A0 E0).1.length = A0.n_bus ∧
      ∀ i, i < A0.n_bus → (e2v A0 E0).1[i]? = E0[A0.num_non_slack_bus + i]?) ∧
    (∀ j, j < A0.num_non_slack_bus →
      (e2v A0 E0).2.1[A0.non_slack_buses.getD j 0]? = E0[j]?) ∧
    (∀ k, k < A0.n_bus → k ∉ A0.non_slack_buses →
      (e2v A0 E0).2.1[k]? = A0.delta[k]?)) :=
  ⟨by unfold Consistent; decide, by decide,
    e2v_decode_correct A0 E0 (by unfold Consistent; decide) (by decide)⟩

/-- C4: every entry of every current-magnitude derivative block returned by
`_dibr_dv` is the finite difference `(|I + 1e-5 * dI| - |I|) / 1e-5`, where
`I` is the unperturbed complex branch current (`Yf*V`, resp. `Yt*V`) of the
entry's row and `dI` the analytic complex current derivative at that entry,
with the fixed step `1e-5` in every direction. -/
theorem dibr_dv_finite_difference (cabs : Cplx → ℚ) (A : BaseAlgebra)
    (V : List Cplx) (r c : Nat) :
    ((dibr_dv cabs A V).1.ent r c =
      (cabs (Cplx.add ((matVec A.Yf V).getD r Cplx.zero)
          (Cplx.smul (1 / 100000) ((A.dIf_dth_f V).ent r c))) -
        cabs ((matVec A.Yf V).getD r Cplx.zero)) / (1 / 100000)) ∧
    ((dibr_dv cabs A V).2.1.ent r c =
      (cabs (Cplx.add ((matVec A.Yf V).getD r Cplx.zero)
          (Cplx.smul (1 / 100000) ((A.dIf_dv_f V).ent r c))) -
        cabs ((matVec A.Yf V).getD r Cplx.zero)) / (1 / 100000)) ∧
    ((dibr_dv cabs A V).2.2.1.ent r c =
      (cabs (Cplx.add ((matVec A.Yt V).getD r Cplx.zero)
          (Cplx.smul (1 / 100000) ((A.dIt_dth_f V).ent r c))) -
        cabs ((matVec A.Yt V).getD r Cplx.zero)) / (1 / 100000)) ∧
    ((dibr_dv cabs A V).2.2.2.ent r c =
      (cabs (Cplx.add ((matVec A.Yt V).getD r Cplx.zero)
          (Cplx.smul (1 / 100000) ((A.dIt_dv_f V).ent r c))) -
        cabs ((matVec A.Yt V).getD r Cplx.zero)) / (1 / 100000)) := by
  refine ⟨?_, ?_, ?_, ?_⟩ <;>
    · simp only [dibr_dv, dIbr_dV, fdMag, fdStep]
      rw [Cplx.add_comm]

/-- C7: `create_cx` returns the real parts of the bus injection
`S_bus = V * conj(Ybus * V)` at the buses of `p_zero_inj` followed by the
imaginary parts at the buses of `q_zero_inj`, every entry multiplied by
`baseMVA`. -/
theorem create_cx_correct (cis : ℚ → Cplx) (A : BaseAlgebra) (E : List ℚ)
    (p_zero_inj q_zero_inj : List Nat) :
    (create_cx cis A E p_zero_inj q_zero_inj).1 =
      p_zero_inj.map (fun i =>
        ((vecMul2 (mkV cis (e2v A E).1 (e2v A E).2.1)
            (conjVec (matVec A.Ybus (mkV cis (e2v A E).1 (e2v A E).2.1)))).getD
          i Cplx.zero).re * A.baseMVA) ++
      q_zero_inj.map (fun i =>
        ((vecMul2 (mkV cis (e2v A E).1 (e2v A E).2.1)
            (conjVec (matVec A.Ybus (mkV cis (e2v A E).1 (e2v A E).2.1)))).getD
          i Cplx.zero).im * A.baseMVA) := by
  simp only [create_cx, List.map_append, List.map_map, Function.comp_def]

/-- C8: calling `create_rx` twice in succession with the same state vector
yields identical residuals; the in-place update of the cached `v` and `delta`
fields by the first call does not change the second call's value. -/
theorem create_rx_idem (cis : ℚ → Cplx) (cabs : Cplx → ℚ) (A : BaseAlgebra)
    (E : List ℚ) :
    (create_rx cis cabs (create_rx cis cabs A E).2 E).1 =
      (create_rx cis cabs A E).1 := by
  simp only [create_rx, create_hx, e2v]
  rw [setAll_idem]
  rfl

/-- The configuration fields named by the frame claim agree between two
algebra objects. -/
def SameConfig (A B : BaseAlgebra) : Prop :=
  A.Ybus = B.Ybus ∧ A.Yf = B.Yf ∧ A.Yt = B.Yt ∧
  A.non_nan_meas_mask = B.non_nan_meas_mask ∧
  A.delta_v_bus_mask = B.delta_v_bus_mask ∧
  A.non_nan_meas_selector = B.non_nan_meas_selector ∧
  A.delta_v_bus_selector = B.delta_v_bus_selector ∧
  A.z = B.z ∧ A.sigma = B.sigma

/-- C10: every public operation leaves the admittance matrices, masks,
selectors, measurement vector and covariance unchanged; only the cached
voltage-state fields are mutated. -/
theorem public_ops_frame (cis : ℚ → Cplx) (cabs : Cplx → ℚ) (A : BaseAlgebra)
    (E : List ℚ) (p_zero_inj q_zero_inj : List Nat) :
    SameConfig A (create_rx cis cabs A E).2 ∧
    SameConfig A (create_hx cis cabs A E).2 ∧
    SameConfig A (create_hx_jacobian cis cabs A E).2 ∧
    SameConfig A (create_cx cis A E p_zero_inj q_zero_inj).2 ∧
    SameConfig A (create_cx_jacobian cis A E p_zero_inj q_zero_inj).2 := by
  refine ⟨?_, ?_, ?_, ?_, ?_⟩ <;>
    exact ⟨rfl, rfl, rfl, rfl, rfl, rfl, rfl, rfl, rfl⟩

theorem hxFull_length (cis : ℚ → Cplx) (cabs : Cplx → ℚ) (A : BaseAlgebra)
    (v delta : List ℚ) (hYb : A.Ybus.length = A.n_bus)
    (hYf : A.Yf.length = A.n_branch) (hYt : A.Yt.length = A.n_branch)
    (hfb : A.fb.length = A.n_branch) (htb : A.tb.length = A.n_branch)
    (hv : v.length = A.n_bus) (hd : delta.length = A.n_bus) :
    (hxFull cis cabs A v delta).length = 3 * A.n_bus + 6 * A.n_branch := by
  simp only [hxFull, mkV, vecMul2, conjVec, matVec, idxSelect, List.length_append,
    List.length_map, List.length_zipWith, hYb, hYf, hYt, hfb, htb, hv, hd]
  omega

/-- C1: `create_hx` returns the nine measurement blocks
`[Re(S_bus), Re(S_from), Re(S_to), Im(S_bus), Im(S_from), Im(S_to), v,
|I_from|, |I_to|]` computed from `V = v * exp(1j * delta)`, concatenated in
this fixed order and restricted to exactly the positions where
`non_nan_meas_mask` is true, preserving their order. -/
theorem create_hx_masked_order (cis : ℚ → Cplx) (cabs : Cplx → ℚ)
    (A : BaseAlgebra) (E : List ℚ) (V : List Cplx) (hC : Consistent A)
    (hE : E.length = A.num_non_slack_bus + A.n_bus)
    (hV : V = mkV cis (e2v A E).1 (e2v A E).2.1) :
    (create_hx cis cabs A E).1 =
      (flatnonzero A.non_nan_meas_mask).map (fun i =>
        ((vecMul2 V (conjVec (matVec A.Ybus V))).map Cplx.re ++
         (vecMul2 (idxSelect V A.fb) (conjVec (matVec A.Yf V))).map Cplx.re ++
         (vecMul2 (idxSelect V A.tb) (conjVec (matVec A.Yt V))).map Cplx.re ++
         (vecMul2 V (conjVec (matVec A.Ybus V))).map Cplx.im ++
         (vecMul2 (idxSelect V A.fb) (conjVec (matVec A.Yf V))).map Cplx.im ++
         (vecMul2 (idxSelect V A.tb) (conjVec (matVec A.Yt V))).map Cplx.im ++
         (e2v A E).1 ++ (matVec A.Yf V).map cabs ++
         (matVec A.Yt V).map cabs).getD i 0) := by
  obtain ⟨hYb, hYf, hYt, hfb, htb, hdl, -, -, -, hml, -, -, -⟩ := hC
  subst hV
  have hv : (e2v A E).1.length = A.n_bus := by
    simp only [e2v, List.length_drop]
    omega
  have hd : (e2v A E).2.1.length = A.n_bus := by
    simp only [e2v, setAll_length, hdl]
  have hlen : A.non_nan_meas_mask.length =
      (hxFull cis cabs A (e2v A E).1 (e2v A E).2.1).length := by
    rw [hxFull_length cis cabs A _ _ hYb hYf hYt hfb htb hv hd, hml]
  show boolSelect A.non_nan_meas_mask
      (hxFull cis cabs A (e2v A E).1 (e2v A E).2.1) = _
  rw [boolSelect_eq_posSelect 0 _ _ hlen]
  rfl

theorem create_hx_masked_order_witness :
    Consistent A0 ∧ E0.length = A0.num_non_slack_bus + A0.n_bus ∧
    (create_hx cis0 cabs0 A0 E0).1 =
      (flatnonzero A0.non_nan_meas_mask).map (fun i =>
        ((vecMul2 (mkV cis0 (e2v A0 E0).1 (e2v A0 E0).2.1)
            (conjVec (matVec A0.Ybus (mkV cis0 (e2v A0 E0).1 (e2v A0 E0).2.1)))).map
            Cplx.re ++
         (vecMul2 (idxSelect (mkV cis0 (e2v A0 E0).1 (e2v A0 E0).2.1) A0.fb)
            (conjVec (matVec A0.Yf (mkV cis0 (e2v A0 E0).1 (e2v A0 E0).2.1)))).map
            Cplx.re ++
         (vecMul2 (idxSelect (mkV cis0 (e2v A0 E0).1 (e2v A0 E0).2.1) A0.tb)
            (conjVec (matVec A0.Yt (mkV cis0 (e2v A0 E0).1 (e2v A0 E0).2.1)))).map
            Cplx.re ++
         (vecMul2 (mkV cis0 (e2v A0 E0).1 (e2v A0 E0).2.1)
            (conjVec (matVec A0.Ybus (mkV cis0 (e2v A0 E0).1 (e2v A0 E0).2.1)))).map
            Cplx.im ++
         (vecMul2 (idxSelect (mkV cis0 (e2v A0 E0).1 (e2v A0 E0).2.1) A0.fb)
            (conjVec (matVec A0.Yf (mkV cis0 (e2v A0 E0).1 (e2v A0 E0).2.1)))).map
            Cplx.im ++
         (vecMul2 (idxSelect (mkV cis0 (e2v A0 E0).1 (e2v A0 E0).2.1) A0.tb)
            (conjVec (matVec A0.Yt (mkV cis0 (e2v A0 E0).1 (e2v A0 E0).2.1)))).map
            Cplx.im ++
         (e2v A0 E0).1 ++
         (matVec A0.Yf (mkV cis0 (e2v A0 E0).1 (e2v A0 E0).2.1)).map cabs0 ++
         (matVec A0.Yt (mkV cis0 (e2v A0 E0).1 (e2v A0 E0).2.1)).map cabs0).getD i 0) :=
  ⟨by unfold Consistent; decide, by decide,
    create_hx_masked_order cis0 cabs0 A0 E0
      (mkV cis0 (e2v A0 E0).1 (e2v A0 E0).2.1)
      (by unfold Consistent; decide) (by decide) rfl⟩

theorem sJac_rows (A : BaseAlgebra) (V : List Cplx) (hD : DerivShapes A) :
    (sJac A V).rows = 2 * A.n_bus + 4 * A.n_branch := by
  obtain ⟨h1, -, -, -, h5, -, -, -, h9, -, -, -, -, -, -, -, -, -, -, -⟩ := hD V
  simp only [sJac, Mat.hstack2, Mat.vstack2, CMat.reM, CMat.imM, h1, h5, h9]
  omega

theorem vJac_rows (V : List Cplx) : (vJac V).rows = V.length := rfl

theorem mkV_e2v_length (cis : ℚ → Cplx) (A : BaseAlgebra) (E : List ℚ)
    (hdl : A.delta.length = A.n_bus)
    (hE : E.length = A.num_non_slack_bus + A.n_bus) :
    (mkV cis (e2v A E).1 (e2v A E).2.1).length = A.n_bus := by
  simp only [mkV, e2v, List.length_zipWith, List.length_drop, setAll_length, hdl]
  omega

/-- Selecting rows of a two-block stack by the true positions of a mask that
is false on every row index reaching past the stack gives the same array as
selecting from the stack extended by a further block. -/
theorem rowSel_vstack2_ignore_tail (S Vm I : Mat) (mask_r : List Bool)
    (sel_c : List Nat)
    (hbound : ∀ i, S.rows + Vm.rows ≤ i → mask_r.getD i false = false) :
    (((Mat.vstack2 S Vm).rowSel (flatnonzero mask_r)).colSel sel_c).toLists =
      (((Mat.vstack2 S (Mat.vstack2 Vm I)).rowSel (flatnonzero mask_r)).colSel
        sel_c).toLists := by
  apply Mat.toLists_congr
  · rfl
  · rfl
  · intro r c hr hc
    simp only [Mat.colSel, Mat.rowSel, Mat.vstack2] at hr hc ⊢
    obtain ⟨-, himask⟩ := flatnonzero_getD_lt mask_r r hr
    have hlt : (flatnonzero mask_r).getD r 0 < S.rows + Vm.rows := by
      by_contra hcon
      rw [hbound _ (Nat.le_of_not_lt hcon)] at himask
      exact Bool.noConfusion himask
    by_cases h5 : (flatnonzero mask_r).getD r 0 < S.rows
    · rw [if_pos h5, if_pos h5]
    · rw [if_neg h5, if_neg h5, if_pos (by omega)]

/-- C2: `create_hx_jacobian` equals the full stacked block matrix with the
rows at the indices where `non_nan_meas_mask` is true selected in increasing
order, then the columns at the indices where `delta_v_bus_mask` is true
selected in increasing order, and its shape is (number of true measurement
mask entries, number of true state mask entries). -/
theorem create_hx_jacobian_projection (cis : ℚ → Cplx) (cabs : Cplx → ℚ)
    (A : BaseAlgebra) (E : List ℚ) (V : List Cplx) (hC : Consistent A)
    (hD : DerivShapes A) (hE : E.length = A.num_non_slack_bus + A.n_bus)
    (hV : V = mkV cis (e2v A E).1 (e2v A E).2.1)
    (hi : A.any_i_meas = true ∨
      ∀ i, 3 * A.n_bus + 4 * A.n_branch ≤ i →
        A.non_nan_meas_mask.getD i false = false) :
    (create_hx_jacobian cis cabs A E).1.toLists =
      (((Mat.vstack2 (sJac A V) (Mat.vstack2 (vJac V) (iJac cabs A V))).rowSel
          (flatnonzero A.non_nan_meas_mask)).colSel
          (flatnonzero A.delta_v_bus_mask)).toLists ∧
    (create_hx_jacobian cis cabs A E).1.rows = A.non_nan_meas_mask.count true ∧
    (create_hx_jacobian cis cabs A E).1.cols = A.delta_v_bus_mask.count true := by
  obtain ⟨hYb, hYf, hYt, hfb, htb, hdl, -, -, -, hml, hdvl, hselr, hselc⟩ := hC
  refine ⟨?_, ?_, ?_⟩
  · subst hV
    by_cases hany : A.any_i_meas = true
    · simp [create_hx_jacobian, hany, hselr, hselc]
    · have hfalse : A.any_i_meas = false := by
        revert hany
        cases A.any_i_meas <;> simp
      have h2 := hi.resolve_left hany
      have hbound : ∀ i,
          (sJac A (mkV cis (e2v A E).1 (e2v A E).2.1)).rows +
            (vJac (mkV cis (e2v A E).1 (e2v A E).2.1)).rows ≤ i →
          A.non_nan_meas_mask.getD i false = false := by
        intro i hle
        rw [sJac_rows A _ hD, vJac_rows, mkV_e2v_length cis A E hdl hE] at hle
        exact h2 i (by omega)
      simp only [create_hx_jacobian, hfalse, Bool.false_eq_true, if_false,
        hselr, hselc]
      exact rowSel_vstack2_ignore_tail _ _ _ _ _ hbound
  · simp only [create_hx_jacobian, Mat.colSel, Mat.rowSel, hselr]
    exact flatnonzero_length _
  · simp only [create_hx_jacobian, Mat.colSel, hselc]
    exact flatnonzero_length _

theorem create_hx_jacobian_projection_witness :
    Consistent A0 ∧ DerivShapes A0 ∧
    E0.length = A0.num_non_slack_bus + A0.n_bus ∧ A0.any_i_meas = true ∧
    ((create_hx_jacobian cis0 cabs0 A0 E0).1.toLists =
      (((Mat.vstack2 (sJac A0 (mkV cis0 (e2v A0 E0).1 (e2v A0 E0).2.1))
          (Mat.vstack2 (vJac (mkV cis0 (e2v A0 E0).1 (e2v A0 E0).2.1))
            (iJac cabs0 A0 (mkV cis0 (e2v A0 E0).1 (e2v A0 E0).2.1)))).rowSel
          (flatnonzero A0.non_nan_meas_mask)).colSel
          (flatnonzero A0.delta_v_bus_mask)).toLists ∧
    (create_hx_jacobian cis0 cabs0 A0 E0).1.rows =
      A0.non_nan_meas_mask.count true ∧
    (create_hx_jacobian cis0 cabs0 A0 E0).1.cols =
      A0.delta_v_bus_mask.count true) :=
  ⟨by unfold Consistent; decide,
    fun V => ⟨rfl, rfl, rfl, rfl, rfl, rfl, rfl, rfl, rfl, rfl, rfl, rfl, rfl,
      rfl, rfl, rfl, rfl, rfl, rfl, rfl⟩,
    by decide, rfl,
    create_hx_jacobian_projection cis0 cabs0 A0 E0
      (mkV cis0 (e2v A0 E0).1 (e2v A0 E0).2.1)
      (by unfold Consistent; decide)
      (fun V => ⟨rfl, rfl, rfl, rfl, rfl, rfl, rfl, rfl, rfl, rfl, rfl, rfl,
        rfl, rfl, rfl, rfl, rfl, rfl, rfl, rfl⟩)
      (by decide) rfl (Or.inl rfl)⟩

/-- C6: when `any_i_meas` is false the Jacobian is assembled without the
current-derivative block; if the measurement mask marks no current-magnitude
slot, the projected result is identical to the one assembled with the
current blocks included — the gating changes only the work done. -/
theorem any_i_meas_gating_irrelevant (cis : ℚ → Cplx) (cabs : Cplx → ℚ)
    (A : BaseAlgebra) (E : List ℚ) (hC : Consistent A) (hD : DerivShapes A)
    (hE : E.length = A.num_non_slack_bus + A.n_bus)
    (hfalse : A.any_i_meas = false)
    (hnoi : ∀ i, 3 * A.n_bus + 4 * A.n_branch ≤ i →
      A.non_nan_meas_mask.getD i false = false) :
    (create_hx_jacobian cis cabs A E).1.toLists =
      (create_hx_jacobian cis cabs { A with any_i_meas := true } E).1.toLists := by
  obtain ⟨-, -, -, -, -, hdl, -, -, -, -, -, hselr, hselc⟩ := hC
  have hR : (create_hx_jacobian cis cabs { A with any_i_meas := true } E).1 =
      ((Mat.vstack2 (sJac A (mkV cis (e2v A E).1 (e2v A E).2.1))
          (Mat.vstack2 (vJac (mkV cis (e2v A E).1 (e2v A E).2.1))
            (iJac cabs A (mkV cis (e2v A E).1 (e2v A E).2.1)))).rowSel
        A.non_nan_meas_selector).colSel A.delta_v_bus_selector := rfl
  have hbound : ∀ i,
      (sJac A (mkV cis (e2v A E).1 (e2v A E).2.1)).rows +
        (vJac (mkV cis (e2v A E).1 (e2v A E).2.1)).rows ≤ i →
      A.non_nan_meas_mask.getD i false = false := by
    intro i hle
    rw [sJac_rows A _ hD, vJac_rows, mkV_e2v_length cis A E hdl hE] at hle
    exact hnoi i (by omega)
  rw [hR]
  simp only [create_hx_jacobian, hfalse, Bool.false_eq_true, if_false,
    hselr, hselc]
  exact rowSel_vstack2_ignore_tail _ _ _ _ _ hbound

/-- A variant of `A0` with no configured current-magnitude measurement:
`any_i_meas` is off and the measurement mask is false on the two
current-magnitude slots. -/
def A1 : BaseAlgebra :=
  { A0 with
    any_i_meas := false
    non_nan_meas_mask :=
      [true, false, true, false, true, false, true, false, true, false, false, false]
    non_nan_meas_selector := flatnonzero
      [true, false, true, false, true, false, true, false, true, false, false, false] }

theorem any_i_meas_gating_irrelevant_witness :
    Consistent A1 ∧ E0.length = A1.num_non_slack_bus + A1.n_bus ∧
    A1.any_i_meas = false ∧
    (∀ i, 3 * A1.n_bus + 6 * A1.n_branch ≤ i →
      A1.non_nan_meas_mask.getD i false = false) ∧
    (create_hx_jacobian cis0 cabs0 A1 E0).1.toLists =
      (create_hx_jacobian cis0 cabs0 { A1 with any_i_meas := true } E0).1.toLists :=
  ⟨by unfold Consistent; decide, by decide, rfl,
    fun i hi => by
      have hi2 : (12 : ℕ) ≤ i := by simpa [A1, A0] using hi
      rw [List.getD_eq_getElem?_getD, List.getElem?_eq_none (by simp [A1, A0]; omega)]
      rfl,
    any_i_meas_gating_irrelevant cis0 cabs0 A1 E0
      (by unfold Consistent; decide)
      (fun V => ⟨rfl, rfl, rfl, rfl, rfl, rfl, rfl, rfl, rfl, rfl, rfl, rfl,
        rfl, rfl, rfl, rfl, rfl, rfl, rfl, rfl⟩)
      (by decide) rfl
      (fun i hi => by
        have hi2 : (10 : ℕ) ≤ i := by simpa [A1, A0] using hi
        by_cases h12 : i < 12
        · interval_cases i <;> decide
        · rw [List.getD_eq_getElem?_getD, List.getElem?_eq_none (by simp [A1, A0]; omega)]
          rfl)⟩

/-- Modelled from the spec: the derivative of `create_cx` with respect to the
free state variables. The pypower routine `dSbus_dV` (not under src) supplies,
per spec section 4.1, the analytic partial derivatives of the bus injection
`S_bus`; `create_cx` returns the selected real/imaginary parts of `S_bus`
multiplied by `baseMVA` (spec section 4.5), so its derivative is `baseMVA`
times the stacked selected derivative blocks, restricted to the
`delta_v_bus_mask` columns. -/
def cx_deriv (cis : ℚ → Cplx) (A : BaseAlgebra) (E : List ℚ)
    (p_zero_inj q_zero_inj : List Nat) : Mat :=
  let p := e2v A E
  let V := mkV cis p.1 p.2.1
  Mat.smul A.baseMVA
    ((Mat.hstack2
        (Mat.vstack2 ((CMat.reM (A.dSbus_dth_f V)).rowSel p_zero_inj)
          ((CMat.imM (A.dSbus_dth_f V)).rowSel q_zero_inj))
        (Mat.vstack2 ((CMat.reM (A.dSbus_dv_f V)).rowSel p_zero_inj)
          ((CMat.imM (A.dSbus_dv_f V)).rowSel q_zero_inj))).colSel
      (flatnonzero A.delta_v_bus_mask))

/-- C9: `create_cx_jacobian` applies no `baseMVA` factor while `create_cx`
does, so the returned matrix equals `1 / baseMVA` times the derivative of
`create_cx` with respect to the free state variables, not that derivative
itself. -/
theorem create_cx_jacobian_scaling (cis : ℚ → Cplx) (A : BaseAlgebra)
    (E : List ℚ) (p_zero_inj q_zero_inj : List Nat) (hb : A.baseMVA ≠ 0) :
    (create_cx_jacobian cis A E p_zero_inj q_zero_inj).1.toLists =
      (Mat.smul (1 / A.baseMVA) (cx_deriv cis A E p_zero_inj q_zero_inj)).toLists := by
  apply Mat.toLists_congr
  · rfl
  · rfl
  · intro r c hr hc
    simp only [create_cx_jacobian, cx_deriv, Mat.smul, Mat.colSel, Mat.rowSel,
      Mat.hstack2, Mat.vstack2, CMat.reM, CMat.imM]
    rw [one_div, inv_mul_cancel_left₀ hb]

theorem create_cx_jacobian_scaling_witness :
    A0.baseMVA ≠ 0 ∧
    (create_cx_jacobian cis0 A0 E0 [0] [1]).1.toLists =
      (Mat.smul (1 / A0.baseMVA) (cx_deriv cis0 A0 E0 [0] [1])).toLists :=
  ⟨by norm_num [A0],
    create_cx_jacobian_scaling cis0 A0 E0 [0] [1] (by norm_num [A0])⟩

/-- An entry of a numpy object-dtype array: either a numeric value or a
wrapped scipy sparse-matrix object. -/
inductive NpObj where
  | num (x : ℚ)
  | spmat (M : Mat)

/-- A numpy object-dtype 2-D array. -/
structure OMat where
  rows : Nat
  cols : Nat
  ent : Nat → Nat → NpObj

/-- A dense numeric array viewed as an object-dtype array (numpy upcasts the
numeric operands when an object-dtype array takes part in a stack). -/
def Mat.toObj (M : Mat) : OMat :=
  { rows := M.rows, cols := M.cols, ent := fun r c => NpObj.num (M.ent r c) }

/-- Vertical concatenation of two object arrays of agreeing column counts. -/
def OMat.vstack2 (M N : OMat) : OMat :=
  { rows := M.rows + N.rows, cols := M.cols,
    ent := fun r c => if r < M.rows then M.ent r c else N.ent (r - M.rows) c }

/-- Row fancy / boolean-mask indexing `M[sel, :]` on an object array. -/
def OMat.rowSel (M : OMat) (sel : List Nat) : OMat :=
  { rows := sel.length, cols := M.cols, ent := fun r c => M.ent (sel.getD r 0) c }

/-- Column fancy / boolean-mask indexing `M[:, sel]` on an object array. -/
def OMat.colSel (M : OMat) (sel : List Nat) : OMat :=
  { rows := M.rows, cols := sel.length, ent := fun r c => M.ent r (sel.getD c 0) }

/-- `np.r_` applied to two 2-D arrays: the concatenation succeeds only when
the column counts agree; otherwise numpy raises `ValueError`, modelled as
`none`. -/
def npr2 (M N : OMat) : Option OMat :=
  if M.cols = N.cols then some (OMat.vstack2 M N) else none

/-- The voltage block `v_jac = np.c_[dv_dth, dv_dv]` of
`BaseAlgebraDecoupled.create_hx_jacobian`: unlike the power and current
blocks, the `_dVbus_dv` outputs are scipy sparse matrices that are never
densified in this method, and `np.array` wraps a sparse matrix as a 0-d
object scalar (a sparse matrix exposes no `__array__` and its `__len__`
raises), so `np.c_` yields a 1 x 2 object-dtype array holding the two
matrices themselves instead of an `n_bus x (2 n_bus)` numeric block. -/
def vJacDec (V : List Cplx) : OMat :=
  { rows := 1, cols := 2,
    ent := fun _ c =>
      if c = 0 then NpObj.spmat (dVbus_dv V).1 else NpObj.spmat (dVbus_dv V).2 }

/-- `BaseAlgebraDecoupled.create_hx_jacobian`: dense assembly of the power
and current blocks with the cross-coupling sub-blocks zeroed, the 1 x 2
object-dtype voltage block `vJacDec`, the final `np.r_` stack (which checks
the column counts and raises `ValueError` on mismatch), and boolean-mask
row/column projection of the result. -/
def create_hx_jacobian_dec (cis : ℚ → Cplx) (cabs : Cplx → ℚ) (A : BaseAlgebra)
    (E : List ℚ) : Option (OMat × BaseAlgebra) :=
  let p := e2v A E
  let V := mkV cis p.1 p.2.1
  let s_jac := sJacDec A V
  let v_jac := vJacDec V
  let i_jac := iJac cabs A V
  match npr2 s_jac.toObj v_jac with
  | none => none
  | some top =>
    match npr2 top i_jac.toObj with
    | none => none
    | some jac =>
      some ((jac.rowSel (flatnonzero A.non_nan_meas_mask)).colSel
        (flatnonzero A.delta_v_bus_mask), p.2.2)

/-- C5: the claim is the spec's intent (section 4.4) but the code fails it:
in `BaseAlgebraDecoupled.create_hx_jacobian` the voltage block
`np.c_[dv_dth, dv_dv]` is built from the never-densified sparse matrices and
is a 1 x 2 object array, so the column counts of the final
`np.r_[s_jac, v_jac, i_jac]` disagree (`2 n_bus` vs `2`) and the call raises
`ValueError` on every network with at least two buses; the method never
returns the cross-block-zeroed Jacobian the claim describes. -/
theorem decoupled_jacobian_raises (cis : ℚ → Cplx) (cabs : Cplx → ℚ)
    (A : BaseAlgebra) (E : List ℚ) (hD : DerivShapes A) (hn : 2 ≤ A.n_bus) :
    create_hx_jacobian_dec cis cabs A E = none := by
  obtain ⟨-, h2, -, h4, -, -, -, -, -, -, -, -, -, -, -, -, -, -, -, -⟩ :=
    hD (mkV cis (e2v A E).1 (e2v A E).2.1)
  simp only [create_hx_jacobian_dec, npr2, Mat.toObj, sJacDec, vJacDec,
    Mat.hstack2, Mat.vstack2, Mat.zeros, CMat.reM, CMat.imM, h2, h4]
  rw [if_neg (by omega)]

theorem decoupled_jacobian_raises_witness :
    DerivShapes A0 ∧ 2 ≤ A0.n_bus ∧
    create_hx_jacobian_dec cis0 cabs0 A0 E0 = none :=
  ⟨fun V => ⟨rfl, rfl, rfl, rfl, rfl, rfl, rfl, rfl, rfl, rfl, rfl, rfl, rfl,
      rfl, rfl, rfl, rfl, rfl, rfl, rfl⟩,
    by decide,
    decoupled_jacobian_raises cis0 cabs0 A0 E0
      (fun V => ⟨rfl, rfl, rfl, rfl, rfl, rfl, rfl, rfl, rfl, rfl, rfl, rfl,
        rfl, rfl, rfl, rfl, rfl, rfl, rfl, rfl⟩)
      (by decide)⟩
